import Mathlib

/-!
Verification of the ReviewVocab repository (`_Review_Vocab.py`) against its
natural-language specification.  The Python code is shallowly embedded:
strings are Lean `String`s (lists of characters), the relevant Python
builtins and the third-party helpers the code calls (`str.strip`,
`str.splitlines`, `re.sub`/`re.findall` for the two fixed patterns the code
uses, `unidecode`, `thefuzz.fuzz.ratio`) are modelled as executable Lean
functions, and each method of `FileParser`, `LangParser`, `ResponseChecker`
is a direct transcription of its Python body over those models.
-/

set_option autoImplicit false

namespace PyModel

/-- Model of Python's whitespace test used by `str.strip` and `str.split()`:
true on the characters reported whitespace by `str.isspace` (restricted to
the code points below 0x2029 that this development manipulates; the rarer
Unicode space code points of the U+2000 block are not in the table). -/
def pyIsSpace (c : Char) : Bool :=
  c.toNat = 9 || c.toNat = 10 || c.toNat = 11 || c.toNat = 12 || c.toNat = 13 ||
  c.toNat = 28 || c.toNat = 29 || c.toNat = 30 || c.toNat = 31 || c.toNat = 32 ||
  c.toNat = 133 || c.toNat = 160 || c.toNat = 8232 || c.toNat = 8233

/-- Line boundaries of Python's `str.splitlines` other than the two-character
boundary `"\r\n"`, which is handled separately. -/
def lineBoundary (c : Char) : Bool :=
  c.toNat = 10 || c.toNat = 11 || c.toNat = 12 || c.toNat = 13 ||
  c.toNat = 28 || c.toNat = 29 || c.toNat = 30 ||
  c.toNat = 133 || c.toNat = 8232 || c.toNat = 8233

/-- Drop the trailing run of whitespace characters of a list. -/
def dropTrailingSpace : List Char → List Char
  | [] => []
  | c :: rest =>
    let r := dropTrailingSpace rest
    if r = [] && pyIsSpace c then [] else c :: r

theorem dropTrailingSpace_cons (c : Char) (rest : List Char) :
    dropTrailingSpace (c :: rest) =
      if dropTrailingSpace rest = [] && pyIsSpace c then [] else c :: dropTrailingSpace rest :=
  rfl

/-- Model of Python `str.strip()` on character lists: remove the leading and
trailing runs of whitespace characters. -/
def pyStrip (l : List Char) : List Char :=
  dropTrailingSpace (l.dropWhile pyIsSpace)

/-- Model of Python `str.strip()` on strings. -/
def pyStripStr (s : String) : String :=
  String.mk (pyStrip s.data)

/-- Helper of `pySplitlines`: accumulate the current line (reversed) while
scanning the character list. -/
def splitlinesAux : List Char → List Char → List String
  | [], acc => if acc = [] then [] else [String.mk acc.reverse]
  | '\r' :: '\n' :: rest, acc => String.mk acc.reverse :: splitlinesAux rest []
  | c :: rest, acc =>
    if lineBoundary c then String.mk acc.reverse :: splitlinesAux rest []
    else splitlinesAux rest (c :: acc)

/-- Model of Python `str.splitlines()`: split at every line boundary,
treating `"\r\n"` as one boundary, with no trailing empty line. -/
def pySplitlines (s : String) : List String :=
  splitlinesAux s.data []

/-- Model of Python `str.split(sep)` for a one-character separator `sep`:
split at every occurrence, keeping empty fragments. -/
def splitChar (sep : Char) : List Char → List (List Char)
  | [] => [[]]
  | c :: rest =>
    let r := splitChar sep rest
    if c = sep then [] :: r
    else
      match r with
      | [] => [[c]]
      | h :: t => (c :: h) :: t

/-- Model of Python `str.split(sep)` on strings, one-character separator. -/
def splitCharStr (sep : Char) (s : String) : List String :=
  (splitChar sep s.data).map String.mk

/-- Helper of `wsSplit`: accumulate the current word (reversed). -/
def wsSplitAux : List Char → List Char → List (List Char)
  | [], acc => if acc = [] then [] else [acc.reverse]
  | c :: rest, acc =>
    if pyIsSpace c then
      if acc = [] then wsSplitAux rest [] else acc.reverse :: wsSplitAux rest []
    else wsSplitAux rest (c :: acc)

/-- Model of Python `str.split()` with no argument: split on runs of
whitespace, discarding empty fragments. -/
def wsSplit (l : List Char) : List (List Char) :=
  wsSplitAux l []

/-- Model of Python `str.lower()` restricted to the Latin letters this
development manipulates: ASCII uppercase is mapped to lowercase and the
accented uppercase letters of the modelled folding table are mapped to
their accented lowercase forms; every other character is unchanged. -/
def pyLowerChar (c : Char) : Char :=
  if 65 ≤ c.toNat && c.toNat ≤ 90 then Char.ofNat (c.toNat + 32)
  else if c = 'É' then 'é'
  else if c = 'Á' then 'á'
  else if c = 'Í' then 'í'
  else if c = 'Ó' then 'ó'
  else if c = 'Ú' then 'ú'
  else if c = 'Ñ' then 'ñ'
  else if c = 'Ü' then 'ü'
  else if c = 'Ç' then 'ç'
  else c

/-- Model of the `unidecode` folding of one character: identity on ASCII,
a fixed table for the accented Latin letters and typographic quotes this
development manipulates, and the empty fold (as `unidecode` does for
unmapped code points) otherwise. -/
def unidecodeChar (c : Char) : List Char :=
  if c.toNat ≤ 127 then [c]
  else if c = 'é' || c = 'è' || c = 'ê' || c = 'ë' then ['e']
  else if c = 'á' || c = 'à' || c = 'â' || c = 'ä' then ['a']
  else if c = 'í' || c = 'ì' || c = 'î' || c = 'ï' then ['i']
  else if c = 'ó' || c = 'ò' || c = 'ô' || c = 'ö' then ['o']
  else if c = 'ú' || c = 'ù' || c = 'û' || c = 'ü' then ['u']
  else if c = 'ñ' then ['n']
  else if c = 'ç' then ['c']
  else if c = '’' || c = '‘' then ['\'']
  else if c = '“' || c = '”' then ['"']
  else []

/-- Model of `unidecode` on a character list. -/
def unidecodeList (l : List Char) : List Char :=
  l.flatMap unidecodeChar

/-- The character class kept by the regex `[^ a-z0-9]` substitution of
`ResponseChecker._sanitize`: space (32), ASCII lowercase letters (97-122)
and ASCII digits (48-57). -/
def allowedChar (c : Char) : Bool :=
  c.toNat = 32 || (97 ≤ c.toNat && c.toNat ≤ 122) || (48 ≤ c.toNat && c.toNat ≤ 57)

/-- Model of `re.sub(r'[^ a-z0-9]', '', txt, count)`: delete characters
outside `allowedChar`, but only the first `count` of them; once the budget
is exhausted the remainder of the string is copied verbatim (Python's
`count` argument caps the number of substitutions). -/
def removeDisallowed : Nat → List Char → List Char
  | _, [] => []
  | n, c :: rest =>
    if allowedChar c then c :: removeDisallowed n rest
    else
      match n with
      | 0 => c :: rest
      | m + 1 => removeDisallowed m rest

/-- Fueled computation of the longest-common-subsequence length of two
character lists; the fuel (any bound on the sum of the lengths) makes the
recursion structural so that the kernel can evaluate it. -/
def lcsFuel : Nat → List Char → List Char → Nat
  | 0, _, _ => 0
  | _ + 1, [], _ => 0
  | _ + 1, _ :: _, [] => 0
  | n + 1, a :: as, b :: bs =>
    if a = b then lcsFuel n as bs + 1
    else max (lcsFuel n (a :: as) bs) (lcsFuel n as (b :: bs))

/-- Length of the longest common subsequence of two character lists; the
normalized indel similarity of `rapidfuzz` (hence `thefuzz.fuzz.ratio`) is
`2 * lcs / (total length)`. -/
def lcs (a b : List Char) : Nat :=
  lcsFuel (a.length + b.length) a b

/-- Round the rational `num / den` (with `den > 0`) to the nearest natural
number, ties to even, as Python's `round` does. -/
def roundHalfEven (num den : Nat) : Nat :=
  let q := num / den
  let r := num % den
  if 2 * r < den then q
  else if den < 2 * r then q + 1
  else if q % 2 = 0 then q else q + 1

/-- Model of `thefuzz.fuzz.ratio`: the normalized indel similarity
`2 * lcs / (len1 + len2)` scaled to 0-100 and rounded to the nearest
integer (100 when both strings are empty). -/
def fuzzRatioScore (s1 s2 : String) : Nat :=
  let total := s1.data.length + s2.data.length
  if total = 0 then 100
  else roundHalfEven (200 * lcs s1.data s2.data) total

end PyModel

open PyModel

namespace ResponseChecker

/-- Transcription of `ResponseChecker._sanitize`:
`unidecode(txt.lower().strip())` followed by
`re.sub(r'[^ a-z0-9]', '', sanitized, re.UNICODE)`.  Note that the Python
code passes `re.UNICODE` (whose numeric value is 32) positionally as the
`count` argument of `re.sub`, so at most 32 disallowed characters are
removed. -/
def _sanitize (txt : String) : String :=
  String.mk (removeDisallowed 32 (unidecodeList (pyStrip (txt.data.map pyLowerChar))))

/-- Transcription of `ResponseChecker.get_score`: sanitize the response and
every answer, take `fuzz.ratio` of the sanitized response against each
sanitized answer, and return the maximum.  Python's `max` raises on an
empty list, modelled by `none`. -/
def get_score (response : String) (valid_answers : List String) : Option Nat :=
  let sanitized_response := _sanitize response
  let sanitized_answers := valid_answers.map _sanitize
  let scores := sanitized_answers.map (fun a => fuzzRatioScore sanitized_response a)
  match scores with
  | [] => none
  | s :: rest => some (rest.foldl Nat.max s)

/-- Transcription of `ResponseChecker.is_valid`: `get_score(...) >= min_valid_score`,
with the threshold defaulting to 100. -/
def is_valid (response : String) (valid_answers : List String)
    (min_valid_score : Nat := 100) : Option Bool :=
  (get_score response valid_answers).map (fun score => decide (min_valid_score ≤ score))

end ResponseChecker

namespace PyModel

theorem lcsFuel_nil_left (n : Nat) (b : List Char) : lcsFuel n [] b = 0 := by
  cases n <;> simp [lcsFuel]

theorem lcsFuel_nil_right (n : Nat) (a : List Char) : lcsFuel n a [] = 0 := by
  cases n <;> cases a <;> simp [lcsFuel]

theorem lcs_nil_right (a : List Char) : lcs a [] = 0 :=
  lcsFuel_nil_right _ a

theorem lcsFuel_le : ∀ (n : Nat) (a b : List Char), a.length + b.length ≤ n →
    lcsFuel n a b ≤ a.length ∧ lcsFuel n a b ≤ b.length := by
  intro n
  induction n with
  | zero =>
    intro a b _
    simp [lcsFuel]
  | succ n ih =>
    intro a b h
    match a, b with
    | [], _ => simp [lcsFuel]
    | _ :: _, [] => simp [lcsFuel]
    | x :: xs, y :: ys =>
      simp only [List.length_cons] at h ⊢
      rw [lcsFuel]
      split
      · have := ih xs ys (by omega)
        omega
      · have h1 := ih (x :: xs) ys (by simp; omega)
        have h2 := ih xs (y :: ys) (by simp; omega)
        simp only [List.length_cons] at h1 h2
        omega

theorem lcs_le (n : Nat) (a b : List Char) (_ : a.length + b.length ≤ n) :
    lcs a b ≤ a.length ∧ lcs a b ≤ b.length :=
  lcsFuel_le (a.length + b.length) a b (Nat.le_refl _)

theorem lcsFuel_self : ∀ (n : Nat) (l : List Char), l.length + l.length ≤ n →
    lcsFuel n l l = l.length := by
  intro n
  induction n with
  | zero =>
    intro l h
    match l, h with
    | [], _ => simp [lcsFuel]
  | succ n ih =>
    intro l h
    match l with
    | [] => simp [lcsFuel]
    | c :: rest =>
      rw [lcsFuel, if_pos rfl, ih rest (by simp only [List.length_cons] at h; omega)]
      simp

theorem lcs_self (l : List Char) : lcs l l = l.length :=
  lcsFuel_self _ l (Nat.le_refl _)

theorem roundHalfEven_le_100 (num den : Nat) (hden : 0 < den)
    (h : num ≤ 100 * den) : roundHalfEven num den ≤ 100 := by
  unfold roundHalfEven
  dsimp only
  have hq : num / den ≤ 100 := by
    have := Nat.div_le_div_right (c := den) h
    rwa [Nat.mul_div_cancel _ hden] at this
  have hmod := Nat.div_add_mod num den
  have hr : num % den < den := Nat.mod_lt _ hden
  by_cases h100 : num / den = 100
  · rw [h100] at hmod ⊢
    have hr0 : num % den = 0 := by omega
    rw [hr0]
    repeat' split
    all_goals omega
  · have hqlt : num / den < 100 := Nat.lt_of_le_of_ne hq h100
    repeat' split
    all_goals omega

theorem fuzzRatioScore_le_100 (s1 s2 : String) : fuzzRatioScore s1 s2 ≤ 100 := by
  unfold fuzzRatioScore
  dsimp only
  split
  · exact Nat.le_refl _
  · rename_i htot
    have hle := lcs_le (s1.data.length + s2.data.length) s1.data s2.data (Nat.le_refl _)
    apply roundHalfEven_le_100 _ _ (by omega)
    have : 2 * lcs s1.data s2.data ≤ s1.data.length + s2.data.length := by omega
    calc 200 * lcs s1.data s2.data = 100 * (2 * lcs s1.data s2.data) := by ring
      _ ≤ 100 * (s1.data.length + s2.data.length) := by
          exact Nat.mul_le_mul_left 100 this

theorem fuzzRatioScore_self (s : String) : fuzzRatioScore s s = 100 := by
  unfold fuzzRatioScore
  dsimp only
  split
  · rfl
  · rename_i htot
    have hlen : 0 < s.data.length := by omega
    rw [lcs_self]
    have h200 : 200 * s.data.length = 100 * (s.data.length + s.data.length) := by ring
    rw [h200]
    unfold roundHalfEven
    dsimp only
    have hq : 100 * (s.data.length + s.data.length) / (s.data.length + s.data.length) = 100 :=
      Nat.mul_div_cancel _ (by omega)
    have hr : 100 * (s.data.length + s.data.length) % (s.data.length + s.data.length) = 0 :=
      Nat.mul_mod_left _ _
    rw [hq, hr]
    split
    · rfl
    · omega

theorem fuzzRatioScore_empty_right (s : String) (h : s.data ≠ []) :
    fuzzRatioScore s "" = 0 := by
  unfold fuzzRatioScore
  have hlen : s.data.length ≠ 0 := by
    intro h0; exact h (List.eq_nil_of_length_eq_zero h0)
  dsimp only
  rw [lcs_nil_right]
  simp only [List.length_nil, Nat.add_zero, Nat.mul_zero]
  rw [if_neg hlen]
  unfold roundHalfEven
  dsimp only
  have hT : 0 < s.data.length := Nat.pos_of_ne_zero hlen
  simp [Nat.zero_mod, Nat.zero_div, hT]

theorem le_foldl_max (l : List Nat) (b : Nat) : b ≤ l.foldl Nat.max b := by
  induction l generalizing b with
  | nil => exact Nat.le_refl _
  | cons x xs ih =>
    simp only [List.foldl_cons]
    exact Nat.le_trans (Nat.le_max_left b x) (ih (Nat.max b x))

theorem foldl_max_le_of_mem (l : List Nat) : ∀ (b x : Nat), x ∈ l →
    x ≤ l.foldl Nat.max b := by
  induction l with
  | nil => intro b x hx; cases hx
  | cons y ys ih =>
    intro b x hx
    simp only [List.foldl_cons]
    rcases List.mem_cons.mp hx with rfl | hmem
    · exact Nat.le_trans (Nat.le_max_right b x) (le_foldl_max ys (Nat.max b x))
    · exact ih (Nat.max b y) x hmem

theorem foldl_max_mem (l : List Nat) (b : Nat) :
    l.foldl Nat.max b = b ∨ l.foldl Nat.max b ∈ l := by
  induction l generalizing b with
  | nil => exact Or.inl rfl
  | cons y ys ih =>
    simp only [List.foldl_cons]
    rcases ih (Nat.max b y) with heq | hmem
    · have hcases : Nat.max b y = b ∨ Nat.max b y = y := by
        rcases Nat.le_total b y with hby | hyb
        · exact Or.inr (Nat.max_eq_right hby)
        · exact Or.inl (Nat.max_eq_left hyb)
      rcases hcases with hb | hy
      · exact Or.inl (heq.trans hb)
      · exact Or.inr (by rw [heq, hy]; exact List.mem_cons_self _ _)
    · exact Or.inr (List.mem_cons_of_mem _ hmem)

end PyModel

/-- Claim C1: for every response string and every non-empty list of accepted
answer strings, `ResponseChecker.get_score` normalizes the response and every
answer with `_sanitize`, computes the edit-distance-based similarity ratio
(`fuzzRatioScore`, i.e. 2 x matching-character pairs / total length, scaled
to 0-100) between the normalized response and each normalized answer, and
returns the maximum, an integer in [0,100] that equals exactly 100 whenever
the normalized response is identical to some normalized answer; and
`ResponseChecker.is_valid response answers threshold` returns true exactly
when the score is at least the threshold, the threshold defaulting to 100. -/
theorem C1_get_score_max_and_is_valid (response : String) (valid_answers : List String)
    (threshold : Nat) (hne : valid_answers ≠ []) :
    ∃ s : Nat,
      ResponseChecker.get_score response valid_answers = some s ∧
      s ≤ 100 ∧
      (∀ a ∈ valid_answers,
        fuzzRatioScore (ResponseChecker._sanitize response) (ResponseChecker._sanitize a) ≤ s) ∧
      (∃ a ∈ valid_answers,
        s = fuzzRatioScore (ResponseChecker._sanitize response) (ResponseChecker._sanitize a)) ∧
      (∀ a ∈ valid_answers,
        ResponseChecker._sanitize a = ResponseChecker._sanitize response → s = 100) ∧
      ResponseChecker.is_valid response valid_answers threshold = some (decide (threshold ≤ s)) ∧
      ResponseChecker.is_valid response valid_answers = some (decide (100 ≤ s)) := by
  obtain ⟨a, rest, rfl⟩ : ∃ a rest, valid_answers = a :: rest := by
    cases valid_answers with
    | nil => exact absurd rfl hne
    | cons a rest => exact ⟨a, rest, rfl⟩
  have hf : ∀ l : List String,
      (l.map ResponseChecker._sanitize).map
          (fun x => fuzzRatioScore (ResponseChecker._sanitize response) x) =
        l.map (fun x =>
          fuzzRatioScore (ResponseChecker._sanitize response) (ResponseChecker._sanitize x)) := by
    intro l
    rw [List.map_map]
    rfl
  have hscore : ResponseChecker.get_score response (a :: rest) =
      some ((rest.map (fun x =>
          fuzzRatioScore (ResponseChecker._sanitize response)
            (ResponseChecker._sanitize x))).foldl Nat.max
        (fuzzRatioScore (ResponseChecker._sanitize response) (ResponseChecker._sanitize a))) := by
    unfold ResponseChecker.get_score
    dsimp only
    rw [List.map_cons, List.map_cons, hf rest]
  refine ⟨_, hscore, ?_, ?_, ?_, ?_, ?_, ?_⟩
  · rcases foldl_max_mem (rest.map (fun x =>
        fuzzRatioScore (ResponseChecker._sanitize response) (ResponseChecker._sanitize x)))
        (fuzzRatioScore (ResponseChecker._sanitize response) (ResponseChecker._sanitize a)) with
      heq | hmem
    · rw [heq]; exact fuzzRatioScore_le_100 _ _
    · obtain ⟨x, _, hx⟩ := List.mem_map.mp hmem
      rw [← hx]; exact fuzzRatioScore_le_100 _ _
  · intro b hb
    rcases List.mem_cons.mp hb with rfl | hmem
    · exact le_foldl_max _ _
    · exact foldl_max_le_of_mem _ _ _ (List.mem_map_of_mem _ hmem)
  · rcases foldl_max_mem (rest.map (fun x =>
        fuzzRatioScore (ResponseChecker._sanitize response) (ResponseChecker._sanitize x)))
        (fuzzRatioScore (ResponseChecker._sanitize response) (ResponseChecker._sanitize a)) with
      heq | hmem
    · exact ⟨a, List.mem_cons_self _ _, heq⟩
    · obtain ⟨x, hxmem, hx⟩ := List.mem_map.mp hmem
      exact ⟨x, List.mem_cons_of_mem _ hxmem, hx.symm⟩
  · intro b hb hsame
    have h100 : fuzzRatioScore (ResponseChecker._sanitize response)
        (ResponseChecker._sanitize b) = 100 := by
      rw [hsame]; exact fuzzRatioScore_self _
    have hle : fuzzRatioScore (ResponseChecker._sanitize response)
        (ResponseChecker._sanitize b) ≤
        (rest.map (fun x =>
          fuzzRatioScore (ResponseChecker._sanitize response)
            (ResponseChecker._sanitize x))).foldl Nat.max
          (fuzzRatioScore (ResponseChecker._sanitize response)
            (ResponseChecker._sanitize a)) := by
      rcases List.mem_cons.mp hb with rfl | hmem
      · exact le_foldl_max _ _
      · exact foldl_max_le_of_mem _ _ _ (List.mem_map_of_mem _ hmem)
    have hub : (rest.map (fun x =>
        fuzzRatioScore (ResponseChecker._sanitize response)
          (ResponseChecker._sanitize x))).foldl Nat.max
        (fuzzRatioScore (ResponseChecker._sanitize response)
          (ResponseChecker._sanitize a)) ≤ 100 := by
      rcases foldl_max_mem (rest.map (fun x =>
          fuzzRatioScore (ResponseChecker._sanitize response) (ResponseChecker._sanitize x)))
          (fuzzRatioScore (ResponseChecker._sanitize response) (ResponseChecker._sanitize a)) with
        heq | hmem
      · rw [heq]; exact fuzzRatioScore_le_100 _ _
      · obtain ⟨x, _, hx⟩ := List.mem_map.mp hmem
        rw [← hx]; exact fuzzRatioScore_le_100 _ _
    omega
  · unfold ResponseChecker.is_valid
    rw [hscore]
    rfl
  · unfold ResponseChecker.is_valid
    rw [hscore]
    rfl

/-- Witness for C1 at a concrete input: response `"hello"`, answers
`["hello"]`, threshold 90. -/
theorem C1_get_score_max_and_is_valid_witness :
    ∃ s : Nat,
      ResponseChecker.get_score "hello" ["hello"] = some s ∧
      s ≤ 100 ∧
      (∀ a ∈ (["hello"] : List String),
        fuzzRatioScore (ResponseChecker._sanitize "hello") (ResponseChecker._sanitize a) ≤ s) ∧
      (∃ a ∈ (["hello"] : List String),
        s = fuzzRatioScore (ResponseChecker._sanitize "hello") (ResponseChecker._sanitize a)) ∧
      (∀ a ∈ (["hello"] : List String),
        ResponseChecker._sanitize a = ResponseChecker._sanitize "hello" → s = 100) ∧
      ResponseChecker.is_valid "hello" ["hello"] 90 = some (decide (90 ≤ s)) ∧
      ResponseChecker.is_valid "hello" ["hello"] = some (decide (100 ≤ s)) :=
  C1_get_score_max_and_is_valid "hello" ["hello"] 90 (by decide)

set_option maxRecDepth 8192 in
/-- Claim C2 (code bug witness): `_sanitize` passes `re.UNICODE` (numeric
value 32) positionally as the `count` argument of `re.sub`, so only the
first 32 disallowed characters are removed: on a string of 33 `'!'`
characters the output is `"!"`, which still contains a character outside
lowercase letters, digits and space. -/
theorem C2_sanitize_keeps_33rd_disallowed_char :
    ResponseChecker._sanitize (String.mk (List.replicate 33 '!')) = "!" ∧
    '!' ∈ (ResponseChecker._sanitize (String.mk (List.replicate 33 '!'))).data ∧
    allowedChar '!' = false := by
  refine ⟨by decide, by decide, by decide⟩

namespace PyModel

theorem charEq_of_toNat {a b : Char} (h : a.toNat = b.toNat) : a = b := by
  have := congrArg Char.ofNat h
  rwa [Char.ofNat_toNat, Char.ofNat_toNat] at this

theorem allowedChar_toNat {c : Char} (h : allowedChar c = true) :
    c.toNat = 32 ∨ (97 ≤ c.toNat ∧ c.toNat ≤ 122) ∨ (48 ≤ c.toNat ∧ c.toNat ≤ 57) := by
  unfold allowedChar at h
  simp at h
  tauto

theorem pyLowerChar_fixed {c : Char} (h : allowedChar c = true) : pyLowerChar c = c := by
  have hn := allowedChar_toNat h
  have hlt : c.toNat ≤ 122 := by omega
  unfold pyLowerChar
  have h1 : ¬((65 ≤ c.toNat && c.toNat ≤ 90) = true) := by
    simp only [Bool.and_eq_true, decide_eq_true_eq, not_and]
    omega
  rw [if_neg h1,
    if_neg (fun he => by subst he; exact absurd hlt (by decide)),
    if_neg (fun he => by subst he; exact absurd hlt (by decide)),
    if_neg (fun he => by subst he; exact absurd hlt (by decide)),
    if_neg (fun he => by subst he; exact absurd hlt (by decide)),
    if_neg (fun he => by subst he; exact absurd hlt (by decide)),
    if_neg (fun he => by subst he; exact absurd hlt (by decide)),
    if_neg (fun he => by subst he; exact absurd hlt (by decide)),
    if_neg (fun he => by subst he; exact absurd hlt (by decide))]

theorem map_pyLowerChar_fixed (l : List Char) (h : ∀ c ∈ l, allowedChar c = true) :
    l.map pyLowerChar = l := by
  induction l with
  | nil => rfl
  | cons c rest ih =>
    rw [List.map_cons, pyLowerChar_fixed (h c (List.mem_cons_self _ _)),
      ih (fun x hx => h x (List.mem_cons_of_mem _ hx))]

theorem pyIsSpace_of_allowed {c : Char} (h : allowedChar c = true) (hne : c ≠ ' ') :
    pyIsSpace c = false := by
  have hn := allowedChar_toNat h
  have h32 : c.toNat ≠ 32 := by
    intro h0
    exact hne (charEq_of_toNat (by rw [h0]; rfl))
  unfold pyIsSpace
  simp only [Bool.or_eq_false_iff, decide_eq_false_iff_not]
  omega

theorem dropWhile_pyIsSpace_fixed (l : List Char) (h : ∀ c ∈ l, allowedChar c = true)
    (hhead : l.head? ≠ some ' ') : l.dropWhile pyIsSpace = l := by
  cases l with
  | nil => rfl
  | cons c rest =>
    have hne : c ≠ ' ' := by
      intro he
      exact hhead (by rw [he]; rfl)
    have hfalse := pyIsSpace_of_allowed (h c (List.mem_cons_self _ _)) hne
    simp [List.dropWhile_cons, hfalse]

theorem dropTrailingSpace_fixed (l : List Char) (h : ∀ c ∈ l, allowedChar c = true)
    (hlast : l.getLast? ≠ some ' ') : dropTrailingSpace l = l := by
  induction l with
  | nil => rfl
  | cons c rest ih =>
    cases rest with
    | nil =>
      have hne : c ≠ ' ' := by
        intro he
        exact hlast (by rw [he]; rfl)
      have hfalse := pyIsSpace_of_allowed (h c (List.mem_cons_self _ _)) hne
      have h0 : dropTrailingSpace ([] : List Char) = [] := rfl
      rw [dropTrailingSpace_cons, h0, hfalse, Bool.and_false]
      simp
    | cons d ds =>
      have hlast' : (d :: ds).getLast? ≠ some ' ' := by
        rwa [List.getLast?_cons_cons] at hlast
      have hr := ih (fun x hx => h x (List.mem_cons_of_mem _ hx)) hlast'
      have hd : (decide ((d :: ds : List Char) = []) : Bool) = false :=
        decide_eq_false (List.cons_ne_nil d ds)
      rw [dropTrailingSpace_cons, hr, hd, Bool.false_and]
      simp

theorem unidecodeChar_allowed {c : Char} (h : allowedChar c = true) :
    unidecodeChar c = [c] := by
  have hn := allowedChar_toNat h
  unfold unidecodeChar
  rw [if_pos]
  omega

theorem unidecodeList_fixed (l : List Char) (h : ∀ c ∈ l, allowedChar c = true) :
    unidecodeList l = l := by
  induction l with
  | nil => rfl
  | cons c rest ih =>
    unfold unidecodeList at ih ⊢
    rw [List.flatMap_cons, unidecodeChar_allowed (h c (List.mem_cons_self _ _)),
      ih (fun x hx => h x (List.mem_cons_of_mem _ hx))]
    rfl

theorem removeDisallowed_fixed (l : List Char) (n : Nat)
    (h : ∀ c ∈ l, allowedChar c = true) : removeDisallowed n l = l := by
  induction l generalizing n with
  | nil => rfl
  | cons c rest ih =>
    unfold removeDisallowed
    rw [if_pos (h c (List.mem_cons_self _ _)), ih n (fun x hx => h x (List.mem_cons_of_mem _ hx))]

theorem removeDisallowed_eq_filter (l : List Char) (n : Nat)
    (h : (l.filter (fun c => !allowedChar c)).length ≤ n) :
    removeDisallowed n l = l.filter allowedChar := by
  induction l generalizing n with
  | nil => rfl
  | cons c rest ih =>
    by_cases hc : allowedChar c = true
    · rw [List.filter_cons_of_neg (by simp [hc])] at h
      unfold removeDisallowed
      rw [if_pos hc, ih n h, List.filter_cons_of_pos hc]
    · have hcf : allowedChar c = false := Bool.eq_false_iff.mpr hc
      rw [List.filter_cons_of_pos (by simp [hcf])] at h
      simp only [List.length_cons] at h
      match n, h with
      | m + 1, h =>
        unfold removeDisallowed
        rw [if_neg hc]
        exact (ih m (by omega)).trans (List.filter_cons_of_neg (by simp [hcf])).symm

end PyModel

set_option maxRecDepth 8192 in
/-- Claim C8 counterexample: `_sanitize` is not idempotent.  Two concrete
failures: `_sanitize ". a ."` is `" a "` (the dots are removed after the
strip, leaving outer spaces that a second pass strips away), and on a
string of 33 `'!'` characters one pass leaves `"!"` (the substitution
budget of 32 is exhausted) while a second pass removes it. -/
theorem C8_sanitize_not_idempotent :
    ResponseChecker._sanitize (ResponseChecker._sanitize ". a .") ≠
      ResponseChecker._sanitize ". a ." ∧
    ResponseChecker._sanitize (ResponseChecker._sanitize (String.mk (List.replicate 33 '!'))) ≠
      ResponseChecker._sanitize (String.mk (List.replicate 33 '!')) := by
  refine ⟨by decide, by decide⟩

/-- Claim C8 amended: `_sanitize` is idempotent on every string whose folded
form contains at most 32 disallowed characters (so the substitution budget
of 32, an artifact of `re.UNICODE` being passed as `re.sub`'s count, is not
exhausted) and whose sanitized output neither starts nor ends with a space
(spaces uncovered by removing punctuation at the ends survive the first
pass, because stripping happens before the substitution, but not a
second). -/
theorem C8_sanitize_idempotent_amended (s : String)
    (hcount : ((unidecodeList (pyStrip (s.data.map pyLowerChar))).filter
        (fun c => !allowedChar c)).length ≤ 32)
    (hhead : (ResponseChecker._sanitize s).data.head? ≠ some ' ')
    (hlast : (ResponseChecker._sanitize s).data.getLast? ≠ some ' ') :
    ResponseChecker._sanitize (ResponseChecker._sanitize s) = ResponseChecker._sanitize s := by
  have hsan : ResponseChecker._sanitize s =
      String.mk ((unidecodeList (pyStrip (s.data.map pyLowerChar))).filter allowedChar) := by
    unfold ResponseChecker._sanitize
    rw [removeDisallowed_eq_filter _ _ hcount]
  set t := (unidecodeList (pyStrip (s.data.map pyLowerChar))).filter allowedChar with ht
  have hall : ∀ c ∈ t, allowedChar c = true := fun c hc => List.of_mem_filter hc
  rw [hsan] at hhead hlast ⊢
  have hdata : (String.mk t).data = t := rfl
  rw [hdata] at hhead hlast
  unfold ResponseChecker._sanitize
  rw [hdata, map_pyLowerChar_fixed t hall]
  unfold pyStrip
  rw [dropWhile_pyIsSpace_fixed t hall hhead, dropTrailingSpace_fixed t hall hlast,
    unidecodeList_fixed t hall, removeDisallowed_fixed t 32 hall]

/-- Witness for the amended C8 at the concrete input `"a b"`. -/
theorem C8_sanitize_idempotent_amended_witness :
    ResponseChecker._sanitize (ResponseChecker._sanitize "a b") =
      ResponseChecker._sanitize "a b" :=
  C8_sanitize_idempotent_amended "a b" (by decide) (by decide) (by decide)

namespace PyModel

/-- Helper modelling the regex `\([^)]*\)` matched at an opening parenthesis:
the greedy `[^)]*` runs to the first `')'`; the match succeeds exactly when
some `')'` follows, and consumes through it.  Returns the suffix after that
first `')'`. -/
def dropThroughRParen : List Char → Option (List Char)
  | [] => none
  | c :: rest => if c = ')' then some rest else dropThroughRParen rest

theorem dropThroughRParen_length :
    ∀ (l l' : List Char), dropThroughRParen l = some l' → l'.length < l.length := by
  intro l
  induction l with
  | nil => intro l' h; cases h
  | cons c rest ih =>
    intro l' h
    unfold dropThroughRParen at h
    split at h
    · cases h
      simp [List.length_cons]
    · exact Nat.lt_trans (ih l' h) (Nat.lt_succ_self _)

/-- Fueled scan of `re.sub(r"\([^)]*\)", "", text)`: the fuel (any bound on
the length) makes the recursion structural. -/
def subParenFuel : Nat → List Char → List Char
  | 0, l => l
  | _ + 1, [] => []
  | n + 1, c :: rest =>
    if c = '(' then
      match dropThroughRParen rest with
      | some rest' => subParenFuel n rest'
      | none => c :: subParenFuel n rest
    else c :: subParenFuel n rest

/-- Model of `re.sub(r"\([^)]*\)", "", text)`: scan left to right; at each
`'('` with a later `')'`, delete through that first `')'` and continue after
it; every other character is kept. -/
def subParen (l : List Char) : List Char :=
  subParenFuel l.length l

/-- Helper modelling the lazy regex `\(.*?\)` matched at an opening
parenthesis: `.*?` cannot cross a newline, so the match succeeds exactly
when a `')'` follows with no `'\n'` before it; it returns the characters
before that first `')'` and the suffix after it. -/
def takeThroughRParenNoNL : List Char → Option (List Char × List Char)
  | [] => none
  | c :: rest =>
    if c = ')' then some ([], rest)
    else if c = '\n' then none
    else (takeThroughRParenNoNL rest).map (fun p => (c :: p.1, p.2))

theorem takeThroughRParenNoNL_length :
    ∀ (l s r : List Char), takeThroughRParenNoNL l = some (s, r) → r.length < l.length := by
  intro l
  induction l with
  | nil => intro s r h; cases h
  | cons c rest ih =>
    intro s r h
    unfold takeThroughRParenNoNL at h
    split at h
    · cases h
      simp [List.length_cons]
    · split at h
      · cases h
      · match hrec : takeThroughRParenNoNL rest with
        | none => rw [hrec] at h; cases h
        | some (s', r') =>
          rw [hrec] at h
          cases h
          exact Nat.lt_trans (ih s' r' hrec) (Nat.lt_succ_self _)

/-- Fueled scan of `re.findall(r"\(.*?\)", text)`: the fuel (any bound on
the length) makes the recursion structural. -/
def findAllParenFuel : Nat → List Char → List (List Char)
  | 0, _ => []
  | _ + 1, [] => []
  | n + 1, c :: rest =>
    if c = '(' then
      match takeThroughRParenNoNL rest with
      | some (content, rest') => ('(' :: content ++ [')']) :: findAllParenFuel n rest'
      | none => findAllParenFuel n rest
    else findAllParenFuel n rest

/-- Model of `re.findall(r"\(.*?\)", text)`: the non-overlapping lazy
matches, scanned left to right, each running from a `'('` through the first
`')'` after it (failing if a newline intervenes). -/
def findAllParen (l : List Char) : List (List Char) :=
  findAllParenFuel l.length l

end PyModel

namespace LangParser

/-- Transcription of `LangParser.get_extra`:
`" ".join(re.findall(r"\(.*?\)", text))`. -/
def get_extra (text : String) : String :=
  String.intercalate " " ((findAllParen text.data).map String.mk)

/-- Transcription of `LangParser._remove_parentheses`:
`re.sub(r"\([^)]*\)", "", text).strip()`. -/
def _remove_parentheses (text : String) : String :=
  String.mk (pyStrip (subParen text.data))

/-- Transcription of `LangParser._split_equivalents`: `text.split("/")`. -/
def _split_equivalents (text : String) : List String :=
  splitCharStr '/' text

/-- The punctuation set `",.!?"` of `_split_equiv_tokens`. -/
def isPunctChar (c : Char) : Bool :=
  c = ',' || c = '.' || c = '!' || c = '?'

/-- Transcription of the `punct_to_add` loop of `_split_equiv_tokens`:
iterate over the reversed final candidate and `insert(0, char)` each
punctuation character (no `break`, so every punctuation character of the
final candidate is collected, in original order). -/
def collectPunct (l : List Char) : List Char :=
  l.reverse.foldl (fun acc c => if isPunctChar c then c :: acc else acc) []

/-- Transcription of `LangParser._split_equiv_tokens`: split the token on
`'|'`; collect the punctuation characters of the final candidate; when any
were found, append them to every non-final candidate and keep the final
candidate unchanged. -/
def _split_equiv_tokens (token : String) : List String :=
  let equivs := splitCharStr '|' token
  let punct_to_add := collectPunct (equivs.getLastD "").data
  if punct_to_add = [] then equivs
  else
    (equivs.dropLast.map (fun equiv => punct_to_add.foldl String.push equiv)) ++
      [equivs.getLastD ""]

/-- Model of `itertools.product(*tokens)` with the results consed in order
(rightmost factor varying fastest). -/
def cartProd : List (List String) → List (List String)
  | [] => [[]]
  | l :: rest => l.flatMap (fun x => (cartProd rest).map (fun combo => x :: combo))

/-- Transcription of `LangParser._separate_equiv_words`: a phrase without
`'|'` is returned verbatim as a singleton; otherwise the phrase is stripped
and whitespace-split, each token containing `'|'` is expanded with
`_split_equiv_tokens`, and the cartesian product of the per-token candidate
lists is joined with single spaces. -/
def _separate_equiv_words (text : String) : List String :=
  if ¬ text.data.contains '|' then [text]
  else
    let tokens := (wsSplit (pyStrip text.data)).map (fun tok =>
      if tok.contains '|' then _split_equiv_tokens (String.mk tok) else [String.mk tok])
    (cartProd tokens).map (fun combo => String.intercalate " " combo)

/-- Transcription of `LangParser.get_equivs`: remove parenthesized spans
(and strip), split on `'/'`, expand each phrase with
`_separate_equiv_words`, and concatenate the results. -/
def get_equivs (text : String) : List String :=
  (_split_equivalents (_remove_parentheses text)).flatMap _separate_equiv_words

end LangParser

namespace FileParser

/-- Transcription of `FileParser._is_line_valid`: reject an empty line, a
line whose `';'` count differs from one, and a line starting with `"//"` or
`"#"`. -/
def _is_line_valid (line : String) : Bool :=
  if line = "" then false
  else if line.data.count ';' ≠ 1 then false
  else if ("//".data).isPrefixOf line.data then false
  else if ("#".data).isPrefixOf line.data then false
  else true

/-- Transcription of `FileParser.get_valid_lines`: keep the valid lines of
`content.splitlines()`, each stripped. -/
def get_valid_lines (content : String) : List String :=
  ((pySplitlines content).filter _is_line_valid).map pyStripStr

end FileParser

namespace PyModel

theorem string_eq_empty_of_data {s : String} (h : s.data = []) : s = "" := by
  cases s with
  | mk d =>
    simp only at h
    rw [h]

theorem splitChar_ne_nil (sep : Char) (l : List Char) : splitChar sep l ≠ [] := by
  induction l with
  | nil => simp [splitChar]
  | cons c rest ih =>
    unfold splitChar
    dsimp only
    split
    · simp
    · split
      · simp
      · simp

theorem splitCharStr_ne_nil (sep : Char) (s : String) : splitCharStr sep s ≠ [] := by
  unfold splitCharStr
  simp only [ne_eq, List.map_eq_nil]
  exact splitChar_ne_nil sep s.data

end PyModel

namespace LangParser

theorem _split_equiv_tokens_ne_nil (token : String) : _split_equiv_tokens token ≠ [] := by
  unfold _split_equiv_tokens
  dsimp only
  split
  · exact splitCharStr_ne_nil _ _
  · simp

theorem cartProd_ne_nil (ls : List (List String)) (h : ∀ l ∈ ls, l ≠ []) :
    cartProd ls ≠ [] := by
  induction ls with
  | nil => simp [cartProd]
  | cons l rest ih =>
    unfold cartProd
    have hl : l ≠ [] := h l (List.mem_cons_self _ _)
    have hr : cartProd rest ≠ [] := ih (fun x hx => h x (List.mem_cons_of_mem _ hx))
    obtain ⟨x, xs, rfl⟩ : ∃ x xs, l = x :: xs := by
      cases l with
      | nil => exact absurd rfl hl
      | cons x xs => exact ⟨x, xs, rfl⟩
    rw [List.flatMap_cons]
    intro hcontra
    rcases List.append_eq_nil.mp hcontra with ⟨h1, _⟩
    exact hr (List.map_eq_nil.mp h1)

theorem _separate_equiv_words_ne_nil (text : String) : _separate_equiv_words text ≠ [] := by
  unfold _separate_equiv_words
  split
  · simp
  · dsimp only
    simp only [ne_eq, List.map_eq_nil]
    apply cartProd_ne_nil
    intro l hl
    simp only [List.mem_map] at hl
    obtain ⟨tok, _, rfl⟩ := hl
    split
    · exact _split_equiv_tokens_ne_nil _
    · simp

theorem get_equivs_ne_nil (text : String) : get_equivs text ≠ [] := by
  unfold get_equivs
  obtain ⟨p, ps, hp⟩ : ∃ p ps, _split_equivalents (_remove_parentheses text) = p :: ps := by
    cases hsp : _split_equivalents (_remove_parentheses text) with
    | nil => exact absurd hsp (splitCharStr_ne_nil '/' (_remove_parentheses text))
    | cons p ps => exact ⟨p, ps, rfl⟩
  rw [hp, List.flatMap_cons]
  intro hcontra
  rcases List.append_eq_nil.mp hcontra with ⟨h1, _⟩
  exact _separate_equiv_words_ne_nil p h1

theorem get_equivs_of_empty_core (text : String) (h : _remove_parentheses text = "") :
    get_equivs text = [""] := by
  unfold get_equivs _split_equivalents
  rw [h]
  decide

end LangParser

namespace ResponseChecker

theorem get_score_some (response : String) (a : String) (rest : List String) :
    ∃ s, get_score response (a :: rest) = some s := by
  unfold get_score
  dsimp only
  exact ⟨_, rfl⟩

end ResponseChecker

/-- Claim C10: `LangParser.get_equivs` is total (its Lean transcription is a
total function: the regex helpers, splitting and product computations never
fail) and always returns a non-empty list; a fragment whose core text is
empty after parenthesis removal — in particular the empty fragment or an
annotation-only fragment — yields `[""]`; consequently
`ResponseChecker.get_score` applied to a review item's equivalence set is
always a maximum over a non-empty list, i.e. it returns a value. -/
theorem C10_get_equivs_total_nonempty (text response : String) :
    LangParser.get_equivs text ≠ [] ∧
    (LangParser._remove_parentheses text = "" → LangParser.get_equivs text = [""]) ∧
    (ResponseChecker.get_score response (LangParser.get_equivs text)).isSome = true := by
  refine ⟨LangParser.get_equivs_ne_nil text, LangParser.get_equivs_of_empty_core text, ?_⟩
  obtain ⟨p, ps, hp⟩ : ∃ p ps, LangParser.get_equivs text = p :: ps := by
    cases hsp : LangParser.get_equivs text with
    | nil => exact absurd hsp (LangParser.get_equivs_ne_nil text)
    | cons p ps => exact ⟨p, ps, rfl⟩
  rw [hp]
  obtain ⟨s, hs⟩ := ResponseChecker.get_score_some response p ps
  rw [hs]
  rfl

/-- Claim C6 counterexample: the code has no `EmptyEquivalenceError` and no
fragment expands to zero accepted strings: the annotation-only side
`"(abc)"` expands, without failing, to `[""]` — a singleton holding the
empty string — and scoring then silently gives a non-empty response the
score 0 against it. -/
theorem C6_no_empty_equivalence_error_cex :
    LangParser.get_equivs "(abc)" = [""] ∧
    ([""] : List String) ≠ [] ∧
    ResponseChecker.get_score "x" (LangParser.get_equivs "(abc)") = some 0 := by
  refine ⟨by decide, by decide, by decide⟩

/-- Claim C6 amended: a side fragment whose core text is empty after
parenthesis removal (e.g. one containing only annotation text) does not
raise: `get_equivs` returns `[""]`, and scoring any response against it
yields 100 when the sanitized response is empty and 0 otherwise — the
silent never-correct behavior the spec wanted surfaced as an error. -/
theorem C6_annotation_only_silent (text response : String)
    (h : LangParser._remove_parentheses text = "") :
    LangParser.get_equivs text = [""] ∧
    ResponseChecker.get_score response (LangParser.get_equivs text) =
      some (if ResponseChecker._sanitize response = "" then 100 else 0) := by
  have heq := LangParser.get_equivs_of_empty_core text h
  refine ⟨heq, ?_⟩
  rw [heq]
  show some (fuzzRatioScore (ResponseChecker._sanitize response)
      (ResponseChecker._sanitize "")) = _
  have hsan : ResponseChecker._sanitize "" = "" := rfl
  rw [hsan]
  by_cases hr : ResponseChecker._sanitize response = ""
  · rw [hr, if_pos rfl]
    rfl
  · rw [if_neg hr]
    refine congrArg some (fuzzRatioScore_empty_right _ ?_)
    intro hd
    exact hr (string_eq_empty_of_data hd)

/-- Witness for the amended C6 at the annotation-only fragment `"(abc)"`
and the response `"x"`. -/
theorem C6_annotation_only_silent_witness :
    LangParser.get_equivs "(abc)" = [""] ∧
    ResponseChecker.get_score "x" (LangParser.get_equivs "(abc)") =
      some (if ResponseChecker._sanitize "x" = "" then 100 else 0) :=
  C6_annotation_only_silent "(abc)" "x" (by decide)

/-- Claim C3 counterexample: a phrase without the word-alternative marker is
returned verbatim, not re-tokenized and re-joined with single spaces:
`get_equivs "a  b"` keeps the double space, where the claimed algorithm
(tokenize on whitespace, cartesian product, join with single spaces) would
produce `["a b"]`. -/
theorem C3_no_whitespace_normalization_cex :
    LangParser.get_equivs "a  b" = ["a  b"] ∧
    (["a  b"] : List String) ≠ ["a b"] := by
  refine ⟨by decide, by decide⟩

/-- Claim C3 amended: `get_equivs` splits the parenthesis-free stripped core
on `'/'` and concatenates the phrase expansions in order; a phrase
containing `'|'` is stripped, tokenized on whitespace, its tokens expanded
(`'|'` tokens into their candidates, others kept fixed), the cartesian
product is taken in token order and joined with single spaces; a phrase
without `'|'` is kept verbatim as one string, without whitespace
normalization.  The claim's two examples hold. -/
theorem C3_get_equivs_amended (text : String) :
    LangParser.get_equivs text =
      ((LangParser._split_equivalents (LangParser._remove_parentheses text)).map
        LangParser._separate_equiv_words).flatten ∧
    (∀ p : String, p.data.contains '|' = false →
      LangParser._separate_equiv_words p = [p]) ∧
    (∀ p : String, p.data.contains '|' = true →
      LangParser._separate_equiv_words p =
        (LangParser.cartProd ((wsSplit (pyStrip p.data)).map (fun tok =>
          if tok.contains '|' then LangParser._split_equiv_tokens (String.mk tok)
          else [String.mk tok]))).map (fun combo => String.intercalate " " combo)) ∧
    LangParser.get_equivs "Hello|Hi there." = ["Hello there.", "Hi there."] ∧
    LangParser.get_equivs "hello world" = ["hello world"] := by
  refine ⟨?_, ?_, ?_, by decide, by decide⟩
  · unfold LangParser.get_equivs
    rw [List.flatMap_def]
  · intro p hp
    unfold LangParser._separate_equiv_words
    rw [if_pos (by rw [hp]; simp)]
  · intro p hp
    unfold LangParser._separate_equiv_words
    rw [if_neg (by rw [hp]; simp)]

/-- Witness for the amended C3: the phrase-level branches at concrete
phrases. -/
theorem C3_get_equivs_amended_witness :
    LangParser._separate_equiv_words "a  b" = ["a  b"] ∧
    LangParser._separate_equiv_words "x|y" =
      (LangParser.cartProd ((wsSplit (pyStrip ("x|y" : String).data)).map (fun tok =>
        if tok.contains '|' then LangParser._split_equiv_tokens (String.mk tok)
        else [String.mk tok]))).map (fun combo => String.intercalate " " combo) :=
  ⟨(C3_get_equivs_amended "a  b").2.1 "a  b" (by decide),
   (C3_get_equivs_amended "x|y").2.2.1 "x|y" (by decide)⟩

namespace PyModel

theorem foldl_push_eq_append : ∀ (l : List Char) (e : String),
    l.foldl String.push e = e ++ String.mk l := by
  intro l
  induction l with
  | nil =>
    intro e
    cases e with
    | mk d =>
      show String.mk d = String.mk (d ++ [])
      rw [List.append_nil]
  | cons c rest ih =>
    intro e
    rw [List.foldl_cons, ih]
    cases e with
    | mk d =>
      show String.mk ((d ++ [c]) ++ rest) = String.mk (d ++ (c :: rest))
      rw [List.append_assoc]
      rfl

end PyModel

namespace LangParser

theorem collectPunct_eq_filter (l : List Char) : collectPunct l = l.filter isPunctChar := by
  unfold collectPunct
  rw [List.foldl_reverse]
  induction l with
  | nil => rfl
  | cons c rest ih =>
    rw [List.foldr_cons, ih, List.filter_cons]

end LangParser

/-- Claim C4 counterexample: punctuation propagation is applied to every
`'|'` token, not only to the last token of a phrase, and it copies every
punctuation character of the final candidate, not only its trailing run:
`get_equivs "a|b. c"` yields `["a. c", "b. c"]` where the claim's rule
(tokens other than the last expand unchanged) would give `["a c", "b. c"]`;
and `_split_equiv_tokens "x|a.b"` yields `["x.", "a.b"]` although the final
candidate `"a.b"` has no trailing punctuation, so the claim would leave
`["x", "a.b"]`. -/
theorem C4_punct_propagation_cex :
    LangParser.get_equivs "a|b. c" = ["a. c", "b. c"] ∧
    (["a. c", "b. c"] : List String) ≠ ["a c", "b. c"] ∧
    LangParser._split_equiv_tokens "x|a.b" = ["x.", "a.b"] ∧
    (["x.", "a.b"] : List String) ≠ ["x", "a.b"] := by
  refine ⟨by decide, by decide, by decide, by decide⟩

/-- Claim C4 amended: every whitespace-delimited token containing `'|'`
(regardless of its position in the phrase) is split on `'|'`; the
punctuation characters (from the set ,.!?) occurring anywhere in the
token's final candidate are collected in their original order and appended
to every other candidate, the final candidate staying unchanged.  The
claim's example still holds, because there the punctuation is a trailing
dot on the last token. -/
theorem C4_split_equiv_tokens_amended (token : String) :
    LangParser._split_equiv_tokens token =
      (let equivs := splitCharStr '|' token
       let punct := (equivs.getLastD "").data.filter LangParser.isPunctChar
       if punct = [] then equivs
       else equivs.dropLast.map (fun e => e ++ String.mk punct) ++ [equivs.getLastD ""]) ∧
    LangParser.get_equivs "Hello world|everyone." = ["Hello world.", "Hello everyone."] := by
  refine ⟨?_, by decide⟩
  unfold LangParser._split_equiv_tokens
  dsimp only
  rw [LangParser.collectPunct_eq_filter]
  by_cases hp : ((splitCharStr '|' token).getLastD "").data.filter LangParser.isPunctChar = []
  · rw [if_pos hp, if_pos hp]
  · rw [if_neg hp, if_neg hp]
    congr 1
    apply List.map_congr_left
    intro e _
    exact foldl_push_eq_append _ e

namespace PyModel

theorem dropWhile_pyIsSpace_count (l : List Char) (c : Char) (hc : pyIsSpace c = false) :
    (l.dropWhile pyIsSpace).count c = l.count c := by
  conv_rhs => rw [← List.takeWhile_append_dropWhile (p := pyIsSpace) (l := l)]
  rw [List.count_append]
  have h0 : (l.takeWhile pyIsSpace).count c = 0 := by
    rw [List.count_eq_zero]
    intro hmem
    have := List.mem_takeWhile_imp hmem
    rw [hc] at this
    cases this
  omega

theorem dropTrailingSpace_all_space (l : List Char) (h : dropTrailingSpace l = []) :
    ∀ x ∈ l, pyIsSpace x = true := by
  induction l with
  | nil => intro x hx; cases hx
  | cons c rest ih =>
    rw [dropTrailingSpace_cons] at h
    split at h
    · rename_i hcond
      simp only [Bool.and_eq_true, decide_eq_true_eq] at hcond
      obtain ⟨h1, h2⟩ := hcond
      intro x hx
      rcases List.mem_cons.mp hx with rfl | hmem
      · exact h2
      · exact ih h1 x hmem
    · cases h

theorem dropTrailingSpace_count (l : List Char) (c : Char) (hc : pyIsSpace c = false) :
    (dropTrailingSpace l).count c = l.count c := by
  induction l with
  | nil => rfl
  | cons d rest ih =>
    rw [dropTrailingSpace_cons]
    split
    · rename_i hcond
      simp only [Bool.and_eq_true, decide_eq_true_eq] at hcond
      obtain ⟨h1, h2⟩ := hcond
      have hdc : ¬ c = d := by
        intro he
        rw [← he] at h2
        rw [hc] at h2
        cases h2
      have hrest : rest.count c = 0 := by
        rw [List.count_eq_zero]
        intro hmem
        have := dropTrailingSpace_all_space rest h1 c hmem
        rw [hc] at this
        cases this
      rw [List.count_nil, List.count_cons, hrest]
      rw [if_neg (fun he => hdc (beq_iff_eq.mp he).symm)]
    · rw [List.count_cons, List.count_cons, ih]

theorem pyStrip_count (l : List Char) (c : Char) (hc : pyIsSpace c = false) :
    (pyStrip l).count c = l.count c := by
  unfold pyStrip
  rw [dropTrailingSpace_count _ _ hc, dropWhile_pyIsSpace_count _ _ hc]

end PyModel

namespace FileParser

theorem _is_line_valid_eval (l : String) :
    _is_line_valid l =
      (decide (l ≠ "") && decide (l.data.count ';' = 1) &&
       !(("//".data).isPrefixOf l.data) && !(("#".data).isPrefixOf l.data)) := by
  unfold _is_line_valid
  by_cases h1 : l = "" <;>
    by_cases h2 : l.data.count ';' = 1 <;>
    by_cases h3 : ("//".data).isPrefixOf l.data = true <;>
    by_cases h4 : ("#".data).isPrefixOf l.data = true <;>
    simp [h1, h2, h3, h4]

end FileParser

/-- Claim C5 counterexample: a line with an empty side is kept, not
rejected: `"a;"` has exactly one `';'`, is non-blank and is no comment, so
`get_valid_lines` keeps it even though its second side trims to empty,
where the claim requires rejection. -/
theorem C5_empty_side_line_kept_cex :
    FileParser.get_valid_lines "a;" = ["a;"] ∧
    (["a;"] : List String) ≠ [] := by
  refine ⟨by decide, by decide⟩

/-- Claim C5 amended: `get_valid_lines` keeps a line exactly when it is
non-empty, contains exactly one `';'` and does not begin with `"//"` or
`"#"`, and returns the kept lines stripped; emptiness of a side after
trimming is not checked.  In particular every returned line still contains
exactly one `';'` (stripping removes only whitespace) and is non-empty, and
every line with zero or more than one delimiter is rejected by the filter,
not truncated. -/
theorem C5_get_valid_lines_amended (content : String) :
    FileParser.get_valid_lines content =
      ((pySplitlines content).filter (fun l =>
        decide (l ≠ "") && decide (l.data.count ';' = 1) &&
        !(("//".data).isPrefixOf l.data) && !(("#".data).isPrefixOf l.data))).map pyStripStr ∧
    ∀ m ∈ FileParser.get_valid_lines content, m.data.count ';' = 1 ∧ m ≠ "" := by
  constructor
  · unfold FileParser.get_valid_lines
    congr 1
    exact List.filter_congr (fun l _ => FileParser._is_line_valid_eval l)
  · intro m hm
    unfold FileParser.get_valid_lines at hm
    rw [List.mem_map] at hm
    obtain ⟨l, hl, rfl⟩ := hm
    rw [List.mem_filter] at hl
    obtain ⟨_, hvalid⟩ := hl
    rw [FileParser._is_line_valid_eval] at hvalid
    simp only [Bool.and_eq_true, decide_eq_true_eq] at hvalid
    have hcount1 : l.data.count ';' = 1 := hvalid.1.1.2
    have hstrip : (pyStripStr l).data.count ';' = 1 := by
      show (pyStrip l.data).count ';' = 1
      rw [pyStrip_count _ _ (by decide)]
      exact hcount1
    refine ⟨hstrip, ?_⟩
    intro hemp
    have hdata : (pyStripStr l).data = [] := by
      rw [hemp]
    rw [hdata] at hstrip
    cases hstrip

namespace PyModel

/-- No opening parenthesis of the list is followed (anywhere later) by a
closing one: the invariant established by `subParen` that makes re-extraction
of annotations from removed text empty. -/
def NoParenPair : List Char → Prop
  | [] => True
  | c :: rest => (c = '(' → ')' ∉ rest) ∧ NoParenPair rest

theorem NoParenPair_sublist {l m : List Char} (h : l.Sublist m) (hm : NoParenPair m) :
    NoParenPair l := by
  induction h with
  | slnil => trivial
  | cons a _ ih => exact ih hm.2
  | cons₂ a hsub ih =>
    exact ⟨fun hc hmem => hm.1 hc (hsub.subset hmem), ih hm.2⟩

theorem dropThroughRParen_sublist :
    ∀ (l l' : List Char), dropThroughRParen l = some l' → l'.Sublist l := by
  intro l
  induction l with
  | nil => intro l' h; cases h
  | cons c rest ih =>
    intro l' h
    unfold dropThroughRParen at h
    split at h
    · cases h
      exact List.sublist_cons_self c rest
    · exact (ih l' h).cons c

theorem dropThroughRParen_none :
    ∀ (l : List Char), dropThroughRParen l = none → ')' ∉ l := by
  intro l
  induction l with
  | nil => intro _ hm; cases hm
  | cons c rest ih =>
    intro h hm
    unfold dropThroughRParen at h
    split at h
    · cases h
    · rename_i hc
      rcases List.mem_cons.mp hm with heq | hmem
      · exact hc heq.symm
      · exact ih h hmem

theorem takeThroughRParenNoNL_none :
    ∀ (l : List Char), ')' ∉ l → takeThroughRParenNoNL l = none := by
  intro l
  induction l with
  | nil => intro _; rfl
  | cons c rest ih =>
    intro h
    unfold takeThroughRParenNoNL
    split
    · rename_i hc
      exact absurd (hc ▸ List.mem_cons_self c rest) h
    · split
      · rfl
      · rw [ih (fun hm => h (List.mem_cons_of_mem _ hm))]
        rfl

theorem dropTrailingSpace_sublist (l : List Char) : (dropTrailingSpace l).Sublist l := by
  induction l with
  | nil => exact List.Sublist.refl _
  | cons c rest ih =>
    rw [dropTrailingSpace_cons]
    split
    · exact List.nil_sublist _
    · exact ih.cons₂ c

theorem dropWhile_pyIsSpace_sublist (l : List Char) : (l.dropWhile pyIsSpace).Sublist l := by
  induction l with
  | nil => exact List.Sublist.refl _
  | cons c rest ih =>
    rw [List.dropWhile_cons]
    split
    · exact ih.trans (List.sublist_cons_self c rest)
    · exact List.Sublist.refl _

theorem pyStrip_sublist (l : List Char) : (pyStrip l).Sublist l :=
  (dropTrailingSpace_sublist _).trans (dropWhile_pyIsSpace_sublist l)

theorem subParenFuel_sublist : ∀ (n : Nat) (l : List Char), l.length ≤ n →
    (subParenFuel n l).Sublist l := by
  intro n
  induction n with
  | zero => intro l _; exact List.Sublist.refl l
  | succ n ih =>
    intro l h
    match l with
    | [] => exact List.Sublist.refl _
    | c :: rest =>
      simp only [List.length_cons] at h
      by_cases hc : c = '('
      · cases hdrop : dropThroughRParen rest with
        | some rest' =>
          have heq : subParenFuel (n + 1) (c :: rest) = subParenFuel n rest' := by
            simp [subParenFuel, hc, hdrop]
          rw [heq]
          have h1 : rest'.Sublist rest := dropThroughRParen_sublist rest rest' hdrop
          have h2 : (subParenFuel n rest').Sublist rest' :=
            ih rest' (by have := h1.length_le; omega)
          exact ((h2.trans h1).trans (List.sublist_cons_self c rest))
        | none =>
          have heq : subParenFuel (n + 1) (c :: rest) = c :: subParenFuel n rest := by
            simp [subParenFuel, hc, hdrop]
          rw [heq]
          exact (ih rest (by omega)).cons₂ c
      · have heq : subParenFuel (n + 1) (c :: rest) = c :: subParenFuel n rest := by
          simp [subParenFuel, hc]
        rw [heq]
        exact (ih rest (by omega)).cons₂ c

theorem subParenFuel_noPair : ∀ (n : Nat) (l : List Char), l.length ≤ n →
    NoParenPair (subParenFuel n l) := by
  intro n
  induction n with
  | zero =>
    intro l h
    have hnil : l = [] := List.eq_nil_of_length_eq_zero (by omega)
    subst hnil
    trivial
  | succ n ih =>
    intro l h
    match l with
    | [] => trivial
    | c :: rest =>
      simp only [List.length_cons] at h
      by_cases hc : c = '('
      · cases hdrop : dropThroughRParen rest with
        | some rest' =>
          have heq : subParenFuel (n + 1) (c :: rest) = subParenFuel n rest' := by
            simp [subParenFuel, hc, hdrop]
          rw [heq]
          have h1 := dropThroughRParen_length rest rest' hdrop
          exact ih rest' (by omega)
        | none =>
          have heq : subParenFuel (n + 1) (c :: rest) = c :: subParenFuel n rest := by
            simp [subParenFuel, hc, hdrop]
          rw [heq]
          refine ⟨fun _ hmem => ?_, ih rest (by omega)⟩
          have hsub := subParenFuel_sublist n rest (by omega)
          exact dropThroughRParen_none rest hdrop (hsub.subset hmem)
      · have heq : subParenFuel (n + 1) (c :: rest) = c :: subParenFuel n rest := by
          simp [subParenFuel, hc]
        rw [heq]
        exact ⟨fun hcc => absurd hcc hc, ih rest (by omega)⟩

theorem findAllParenFuel_nil : ∀ (n : Nat) (l : List Char), l.length ≤ n →
    NoParenPair l → findAllParenFuel n l = [] := by
  intro n
  induction n with
  | zero => intro l _ _; rfl
  | succ n ih =>
    intro l h hnp
    match l with
    | [] => rfl
    | c :: rest =>
      simp only [List.length_cons] at h
      by_cases hc : c = '('
      · have hmem : ')' ∉ rest := hnp.1 hc
        have hnone : takeThroughRParenNoNL rest = none := takeThroughRParenNoNL_none rest hmem
        have heq : findAllParenFuel (n + 1) (c :: rest) = findAllParenFuel n rest := by
          simp [findAllParenFuel, hc, hnone]
        rw [heq]
        exact ih rest (by omega) hnp.2
      · have heq : findAllParenFuel (n + 1) (c :: rest) = findAllParenFuel n rest := by
          simp [findAllParenFuel, hc]
        rw [heq]
        exact ih rest (by omega) hnp.2

end PyModel

/-- Claim C7 counterexample: nested or unbalanced parentheses raise no
error: on the nested fragment `"x ((a) b)"`, `get_extra` returns the
mis-split annotation `"((a)"` and `_remove_parentheses` returns `"x  b)"`,
and on the unbalanced fragment `"((("` both return results as well — no
`AnnotationParseError` exists in the code. -/
theorem C7_no_annotation_parse_error_cex :
    LangParser.get_extra "x ((a) b)" = "((a)" ∧
    LangParser._remove_parentheses "x ((a) b)" = "x  b)" ∧
    LangParser.get_extra "(((" = "" ∧
    LangParser._remove_parentheses "(((" = "(((" := by
  refine ⟨by decide, by decide, by decide, by decide⟩

/-- Claim C7 amended: `get_extra` and `_remove_parentheses` are total — on
unbalanced or nested parentheses they return (possibly mis-split)
regex-driven results instead of raising.  Removal is nonetheless complete
in the following sense: re-extracting annotations from removed core text
always yields the empty annotation, for every input. -/
theorem C7_removal_reextracts_empty (text : String) :
    LangParser.get_extra (LangParser._remove_parentheses text) = "" := by
  unfold LangParser.get_extra LangParser._remove_parentheses
  have hdata : (String.mk (pyStrip (subParen text.data))).data =
      pyStrip (subParen text.data) := rfl
  rw [hdata]
  have hnp : NoParenPair (subParen text.data) :=
    subParenFuel_noPair _ text.data (Nat.le_refl _)
  have hnp2 : NoParenPair (pyStrip (subParen text.data)) :=
    NoParenPair_sublist (pyStrip_sublist _) hnp
  have hfind : findAllParen (pyStrip (subParen text.data)) = [] :=
    findAllParenFuel_nil _ _ (Nat.le_refl _) hnp2
  rw [hfind]
  rfl

namespace HintMasker

/-- Modelled from the spec: `HintMasker` is missing from `src/` (no such
class or masking routine exists in `_Review_Vocab.py`); spec 4.6 treats
whitespace and apostrophe characters as always-visible structural
characters, never masked and never counted toward the hint strength. -/
def structuralChar (c : Char) : Bool :=
  pyIsSpace c || c = '\''

/-- Modelled from the spec: `maskable` is the count of characters of the
answer outside the structural set. -/
def maskable (answer : String) : Nat :=
  (answer.data.filter (fun c => !structuralChar c)).length

/-- Modelled from the spec: the positions (character indices) of the
maskable characters of the answer. -/
def maskIdxOf (answer : String) : List Nat :=
  (List.range answer.data.length).filter
    (fun i => !structuralChar (answer.data.getD i ' '))

/-- Modelled from the spec: clamp the requested hint strength to
`[1, maskable - 1]` when `maskable > 1`; when `maskable <= 1`, reveal the
single maskable character (if any). -/
def strengthOf (answer : String) (hint_strength : Nat) : Nat :=
  let m := (maskIdxOf answer).length
  if m ≤ 1 then m else min (max hint_strength 1) (m - 1)

/-- Modelled from the spec: choose `k` distinct elements of the pool
pseudo-randomly without replacement; the list `rs` models the stream of
draws of the random source, each draw taken modulo the remaining pool
size. -/
def selectK : Nat → List Nat → List Nat → List Nat
  | 0, _, _ => []
  | _ + 1, _, [] => []
  | k + 1, rs, p :: ps =>
    (p :: ps).getD (rs.headD 0 % (p :: ps).length) 0 ::
      selectK k rs.tail ((p :: ps).eraseIdx (rs.headD 0 % (p :: ps).length))

/-- Modelled from the spec: the set of positions left visible for one
masking call. -/
def visibleOf (answer : String) (hint_strength : Nat) (rands : List Nat) : List Nat :=
  selectK (strengthOf answer hint_strength) rands (maskIdxOf answer)

/-- Modelled from the spec: `mask(answer, hint_strength)` keeps structural
characters and the chosen visible positions, and replaces every other
maskable character with the mask symbol `'*'`. -/
def mask (answer : String) (hint_strength : Nat) (rands : List Nat) : String :=
  String.mk (answer.data.enum.map (fun p =>
    if structuralChar p.2 then p.2
    else if (visibleOf answer hint_strength rands).contains p.1 then p.2 else '*'))

theorem getD_mem : ∀ (l : List Nat) (i : Nat), i < l.length → l.getD i 0 ∈ l := by
  intro l
  induction l with
  | nil => intro i h; simp at h
  | cons p ps ih =>
    intro i h
    match i with
    | 0 => exact List.mem_cons_self _ _
    | i + 1 => exact List.mem_cons_of_mem _ (ih i (by simpa using h))

theorem getD_not_mem_eraseIdx : ∀ (pool : List Nat) (i : Nat), i < pool.length →
    pool.Nodup → pool.getD i 0 ∉ pool.eraseIdx i := by
  intro pool
  induction pool with
  | nil => intro i h; simp at h
  | cons p ps ih =>
    intro i hlt hnodup
    match i with
    | 0 => exact (List.nodup_cons.mp hnodup).1
    | i + 1 =>
      intro hmem
      have hi : i < ps.length := by simpa using hlt
      rcases List.mem_cons.mp hmem with heq | hmem'
      · have heq' : ps.getD i 0 = p := heq
        have hin : ps.getD i 0 ∈ ps := getD_mem ps i hi
        rw [heq'] at hin
        exact (List.nodup_cons.mp hnodup).1 hin
      · exact ih i hi (List.nodup_cons.mp hnodup).2 hmem'

theorem selectK_length : ∀ (k : Nat) (rs pool : List Nat), k ≤ pool.length →
    (selectK k rs pool).length = k := by
  intro k
  induction k with
  | zero => intro rs pool _; rfl
  | succ k ih =>
    intro rs pool h
    match pool with
    | [] => simp at h
    | p :: ps =>
      have hmod : rs.headD 0 % (p :: ps).length < (p :: ps).length :=
        Nat.mod_lt _ (by simp)
      have hlen : ((p :: ps).eraseIdx (rs.headD 0 % (p :: ps).length)).length = ps.length := by
        simp [List.length_eraseIdx]
        exact Nat.mod_lt _ (Nat.succ_pos _)
      rw [selectK, List.length_cons, ih rs.tail _ (by rw [hlen]; simpa using h)]

theorem selectK_subset : ∀ (k : Nat) (rs pool : List Nat), ∀ x ∈ selectK k rs pool,
    x ∈ pool := by
  intro k
  induction k with
  | zero => intro rs pool x hx; cases hx
  | succ k ih =>
    intro rs pool x hx
    match pool with
    | [] => rw [selectK] at hx; cases hx
    | p :: ps =>
      rw [selectK] at hx
      rcases List.mem_cons.mp hx with rfl | hmem
      · exact getD_mem _ _ (Nat.mod_lt _ (by simp))
      · exact (List.eraseIdx_sublist _ _).subset (ih rs.tail _ x hmem)

theorem selectK_nodup : ∀ (k : Nat) (rs pool : List Nat), pool.Nodup →
    (selectK k rs pool).Nodup := by
  intro k
  induction k with
  | zero => intro rs pool _; exact List.nodup_nil
  | succ k ih =>
    intro rs pool hnodup
    match pool with
    | [] => rw [selectK]; exact List.nodup_nil
    | p :: ps =>
      rw [selectK]
      refine List.nodup_cons.mpr ⟨?_, ih rs.tail _ ((List.eraseIdx_sublist _ _).nodup hnodup)⟩
      intro hmem
      have := selectK_subset k rs.tail _ _ hmem
      exact getD_not_mem_eraseIdx (p :: ps) _ (Nat.mod_lt _ (by simp)) hnodup this

theorem filter_map_comm (f : Nat → Nat) (q : Nat → Bool) :
    ∀ (r : List Nat), (r.map f).filter q = (r.filter (fun x => q (f x))).map f := by
  intro r
  induction r with
  | nil => rfl
  | cons a as ih =>
    rw [List.map_cons, List.filter_cons, List.filter_cons]
    by_cases hq : q (f a) = true
    · rw [if_pos hq, if_pos hq, List.map_cons, ih]
    · rw [if_neg (by simpa using hq), if_neg (by simpa using hq), ih]

theorem filter_range_length : ∀ (l : List Char) (p : Char → Bool),
    ((List.range l.length).filter (fun i => p (l.getD i ' '))).length =
      (l.filter p).length := by
  intro l
  induction l with
  | nil => intro p; rfl
  | cons c rest ih =>
    intro p
    rw [List.length_cons, List.range_succ_eq_map, List.filter_cons, List.filter_cons,
      filter_map_comm]
    simp only [List.getD_cons_zero, List.getD_cons_succ]
    by_cases hp : p c = true
    · rw [if_pos hp, if_pos hp, List.length_cons, List.length_cons, List.length_map]
      rw [ih p]
    · rw [if_neg (by simpa using hp), if_neg (by simpa using hp), List.length_map]
      rw [ih p]

theorem maskIdxOf_length (answer : String) : (maskIdxOf answer).length = maskable answer :=
  filter_range_length answer.data (fun c => !structuralChar c)

theorem enumFrom_get? {α : Type} : ∀ (k : Nat) (l : List α) (i : Nat),
    (List.enumFrom k l).get? i = (l.get? i).map (fun a => (k + i, a)) := by
  intro k l
  induction l generalizing k with
  | nil => intro i; rfl
  | cons a as ih =>
    intro i
    match i with
    | 0 => simp [List.enumFrom]
    | i + 1 =>
      show (List.enumFrom (k + 1) as).get? i = (as.get? i).map (fun a => (k + (i + 1), a))
      rw [ih (k + 1) i]
      have harith : k + 1 + i = k + (i + 1) := by omega
      rw [harith]

theorem enum_get? {α : Type} (l : List α) (i : Nat) :
    l.enum.get? i = (l.get? i).map (fun a => (i, a)) := by
  show (List.enumFrom 0 l).get? i = _
  rw [enumFrom_get?]
  simp

theorem contains_iff_mem {l : List Nat} {x : Nat} : l.contains x = true ↔ x ∈ l := by
  induction l with
  | nil => simp [List.contains]
  | cons a as ih =>
    simp [List.contains] at ih ⊢

theorem get?_eq_some_getD : ∀ (l : List Char) (i : Nat), i < l.length →
    l.get? i = some (l.getD i ' ') := by
  intro l
  induction l with
  | nil => intro i h; simp at h
  | cons c rest ih =>
    intro i h
    match i with
    | 0 => rfl
    | i + 1 => exact ih i (by simpa using h)

theorem mask_data_get? (answer : String) (n : Nat) (rands : List Nat) (i : Nat) (c : Char)
    (h : answer.data.get? i = some c) :
    (mask answer n rands).data.get? i =
      some (if structuralChar c then c
        else if (visibleOf answer n rands).contains i then c else '*') := by
  show ((answer.data.enum.map (fun p =>
    if structuralChar p.2 then p.2
    else if (visibleOf answer n rands).contains p.1 then p.2 else '*')).get? i) = _
  rw [List.get?_map, enum_get?, h]
  rfl

theorem mask_length (answer : String) (n : Nat) (rands : List Nat) :
    (mask answer n rands).length = answer.length := by
  show (answer.data.enum.map _).length = answer.data.length
  rw [List.length_map, List.enum_length]

end HintMasker

/-- Claim C9 (spec-modelled: `HintMasker` does not exist in `src/`, so it is
modelled from spec 4.6): for every answer with more than one maskable
(non-whitespace, non-apostrophe) character, every hint strength and every
random stream, `mask` returns a string of the answer's length in which some
set of exactly `clamp(n, 1, maskable - 1)` distinct maskable positions keep
their characters, every other maskable position is replaced by `'*'`, and
every structural (whitespace or apostrophe) character is left untouched. -/
theorem C9_hintmasker_mask_spec (answer : String) (n : Nat) (rands : List Nat)
    (hmask : 1 < HintMasker.maskable answer) :
    ∃ S : List Nat,
      S.Nodup ∧
      S.length = min (max n 1) (HintMasker.maskable answer - 1) ∧
      (∀ i ∈ S, ∃ c, answer.data.get? i = some c ∧ HintMasker.structuralChar c = false) ∧
      (HintMasker.mask answer n rands).length = answer.length ∧
      (∀ i c, answer.data.get? i = some c → HintMasker.structuralChar c = true →
        (HintMasker.mask answer n rands).data.get? i = some c) ∧
      (∀ i c, answer.data.get? i = some c → HintMasker.structuralChar c = false →
        (i ∈ HintMasker.visibleOf answer n rands →
          (HintMasker.mask answer n rands).data.get? i = some c) ∧
        (i ∉ HintMasker.visibleOf answer n rands →
          (HintMasker.mask answer n rands).data.get? i = some '*')) ∧
      S = HintMasker.visibleOf answer n rands := by
  have hm := HintMasker.maskIdxOf_length answer
  have hknotone : ¬ (HintMasker.maskIdxOf answer).length ≤ 1 := by omega
  have hk : HintMasker.strengthOf answer n =
      min (max n 1) (HintMasker.maskable answer - 1) := by
    unfold HintMasker.strengthOf
    rw [if_neg hknotone, hm]
  have hkle : HintMasker.strengthOf answer n ≤ (HintMasker.maskIdxOf answer).length := by
    rw [hk, hm]
    exact Nat.le_trans (Nat.min_le_right _ _) (by omega)
  have hnodupIdx : (HintMasker.maskIdxOf answer).Nodup :=
    (List.nodup_range _).filter _
  refine ⟨HintMasker.visibleOf answer n rands,
    HintMasker.selectK_nodup _ _ _ hnodupIdx,
    by rw [HintMasker.visibleOf, HintMasker.selectK_length _ _ _ hkle, hk],
    ?_, HintMasker.mask_length answer n rands, ?_, ?_, rfl⟩
  · intro i hi
    have hmem : i ∈ HintMasker.maskIdxOf answer :=
      HintMasker.selectK_subset _ _ _ i hi
    rw [HintMasker.maskIdxOf, List.mem_filter, List.mem_range] at hmem
    obtain ⟨hlt, hstr⟩ := hmem
    refine ⟨answer.data.getD i ' ', HintMasker.get?_eq_some_getD _ _ hlt, ?_⟩
    simpa using hstr
  · intro i c hget hstr
    rw [HintMasker.mask_data_get? answer n rands i c hget, if_pos hstr]
  · intro i c hget hstr
    constructor
    · intro hin
      rw [HintMasker.mask_data_get? answer n rands i c hget,
        if_neg (by rw [hstr]; simp),
        if_pos (HintMasker.contains_iff_mem.mpr hin)]
    · intro hnotin
      rw [HintMasker.mask_data_get? answer n rands i c hget,
        if_neg (by rw [hstr]; simp),
        if_neg (fun hcon => hnotin (HintMasker.contains_iff_mem.mp hcon))]

/-- Witness for C9 at the concrete input: answer `"abc"` (three maskable
characters), hint strength 1, empty random stream — the theorem applies and
the mask evaluates to `"a**"`. -/
theorem C9_hintmasker_mask_spec_witness :
    (∃ S : List Nat,
      S.Nodup ∧
      S.length = min (max 1 1) (HintMasker.maskable "abc" - 1) ∧
      (∀ i ∈ S, ∃ c, ("abc" : String).data.get? i = some c ∧
        HintMasker.structuralChar c = false) ∧
      (HintMasker.mask "abc" 1 []).length = ("abc" : String).length ∧
      (∀ i c, ("abc" : String).data.get? i = some c → HintMasker.structuralChar c = true →
        (HintMasker.mask "abc" 1 []).data.get? i = some c) ∧
      (∀ i c, ("abc" : String).data.get? i = some c → HintMasker.structuralChar c = false →
        (i ∈ HintMasker.visibleOf "abc" 1 [] →
          (HintMasker.mask "abc" 1 []).data.get? i = some c) ∧
        (i ∉ HintMasker.visibleOf "abc" 1 [] →
          (HintMasker.mask "abc" 1 []).data.get? i = some '*')) ∧
      S = HintMasker.visibleOf "abc" 1 []) ∧
    HintMasker.mask "abc" 1 [] = "a**" :=
  ⟨C9_hintmasker_mask_spec "abc" 1 [] (by decide), by decide⟩
